import Mathlib

/-!
Verification of the Room-nav-demo waypoint system: a shallow embedding of the
waypoint parsing, segmentation, centripetal Catmull-Rom sampling and motion
sequencing code, with theorems settling the specification's claims.

Coordinates are modelled as real numbers (the source operates on JS doubles);
list/array code is translated structurally, with JS `x ?? d` / out-of-range
indexing rendered as `List.getD` and JS truthiness of possibly-absent object
values rendered as `Option`.
-/

namespace RoomNav

/-- 3D vector, mirroring the engine `Vec3` used throughout the source. -/
structure Vec3 where
  x : ℝ
  y : ℝ
  z : ℝ

/-- The zero vector `new Vec3()`. -/
def vzero : Vec3 := ⟨0, 0, 0⟩

instance : Inhabited Vec3 := ⟨vzero⟩

/-- Componentwise subtraction (`Vec3#sub`). -/
def vsub (a b : Vec3) : Vec3 := ⟨a.x - b.x, a.y - b.y, a.z - b.z⟩

/-- Componentwise addition (`Vec3#add`). -/
def vadd (a b : Vec3) : Vec3 := ⟨a.x + b.x, a.y + b.y, a.z + b.z⟩

/-- Scalar multiplication (`Vec3#mulScalar`). -/
def vscale (c : ℝ) (a : Vec3) : Vec3 := ⟨c * a.x, c * a.y, c * a.z⟩

/-- Squared length (`Vec3#lengthSq`). -/
def lengthSq (a : Vec3) : ℝ := a.x ^ 2 + a.y ^ 2 + a.z ^ 2

/-- Euclidean length (`Vec3#length`). -/
noncomputable def norm3 (a : Vec3) : ℝ := Real.sqrt (lengthSq a)

/-- Euclidean distance (`Vec3#distance`). -/
noncomputable def dist3 (a b : Vec3) : ℝ := norm3 (vsub a b)

theorem dist3_nonneg (a b : Vec3) : 0 ≤ dist3 a b := Real.sqrt_nonneg _

/-- `_chainLength(points)`: the sum of distances between consecutive points
(identical in `WaypointPathBuilder`, `CameraMover` and `CameraWaypointPath`). -/
noncomputable def chainLength : List Vec3 → ℝ
  | [] => 0
  | [_] => 0
  | a :: b :: rest => dist3 b a + chainLength (b :: rest)

theorem chainLength_nonneg (l : List Vec3) : 0 ≤ chainLength l := by
  induction l with
  | nil => simp [chainLength]
  | cons a rest ih =>
    cases rest with
    | nil => simp [chainLength]
    | cons b r =>
      simp only [chainLength]
      have := dist3_nonneg b a
      have := ih
      linarith

/-! ## Waypoint parsing (`WaypointFetcher._parseJson` / `_parseCsv`)

A JSON row is either a falsy entry (skipped by `if (!row) continue;`) or a row
whose coalesced `position`/`pos`/`p`, `rotation`/`rot`/`r` lookups are either a
truthy value (already coerced by `_toVec3`) or absent/falsy, plus the coerced
numeric `pause ?? wait ?? delay ?? 0` value. -/
/-- The parallel waypoint arrays both parsers produce and the movers consume. -/
structure WaypointData where
  positions : List Vec3
  rotations : List Vec3
  pauses : List ℝ

inductive JsonRow where
  | null : JsonRow
  | row (pos : Option Vec3) (rot : Option Vec3) (wait : ℝ) : JsonRow

/-- `WaypointFetcher._parseJson` (same loop in `CameraWaypointPath._parseJson`):
for each non-null row, pushes the coerced position/rotation only when the
corresponding field is truthy, but always pushes a pause entry. -/
def parseJson : List JsonRow → WaypointData
  | [] => ⟨[], [], []⟩
  | JsonRow.null :: rest => parseJson rest
  | JsonRow.row p r w :: rest =>
    ⟨p.toList ++ (parseJson rest).positions,
      r.toList ++ (parseJson rest).rotations,
      w :: (parseJson rest).pauses⟩

/-- A CSV line after splitting on the delimiter and trimming: each cell is the
result of `Number(c)` — `some x` for a numeric cell, `none` for NaN. -/
abbrev CsvLine := List (Option ℝ)

/-- `WaypointFetcher._parseCsv` over pre-split lines: a line is accepted iff it
has at least 6 cells, all numeric; it then contributes `nums[0..2]` to
positions, `nums[3..5]` to rotations and `Number(cols[6]) || 0` to pauses. -/
def parseCsv : List CsvLine → WaypointData
  | [] => ⟨[], [], []⟩
  | line :: rest =>
    if line.length < 6 ∨ ¬ (∀ c ∈ line, Option.isSome c) then parseCsv rest
    else
      let n : ℕ → ℝ := fun i => (line.getD i none).getD 0
      ⟨⟨n 0, n 1, n 2⟩ :: (parseCsv rest).positions,
        ⟨n 3, n 4, n 5⟩ :: (parseCsv rest).rotations,
        (if line.length < 7 then 0 else n 6) :: (parseCsv rest).pauses⟩

/-! ## Segmenter (`WaypointPathBuilder._buildSegments`, identically
`CameraWaypointPath._buildSegments`) -/

/-- A segment record `{ start, end, prevPoint, nextPoint }`. -/
structure Segment where
  start : ℕ
  endIdx : ℕ
  prevPoint : Option Vec3
  nextPoint : Option Vec3

/-- The `stops` set: `{0, length-1}` plus every index with a positive pause
(`(pauses[i] ?? 0) > 0`). -/
noncomputable def stopSet (L : ℕ) (pauses : List ℝ) : Finset ℕ :=
  {0, L - 1} ∪ (Finset.range L).filter (fun i => 0 < pauses.getD i 0)

/-- `Array.from(stops).sort((a, b) => a - b)`. -/
noncomputable def stopIndices (L : ℕ) (pauses : List ℝ) : List ℕ :=
  (stopSet L pauses).sort (· ≤ ·)

/-- `_buildSegments(positions, pauses)`: one candidate segment per consecutive
pair of sorted stop indices, dropped when `end <= start`, with the waypoint one
step outside the range on each side when it exists. -/
noncomputable def buildSegments (positions : List Vec3) (pauses : List ℝ) :
    List Segment :=
  let L := positions.length
  let indices := stopIndices L pauses
  (indices.zip indices.tail).filterMap (fun p =>
    if p.2 ≤ p.1 then none
    else some
      { start := p.1
        endIdx := p.2
        prevPoint := if 0 < p.1 then some (positions.getD (p.1 - 1) vzero) else none
        nextPoint := if p.2 + 1 < L then some (positions.getD (p.2 + 1) vzero) else none })

/-! ## Spline Sampler (`WaypointPathBuilder._sampleCurve` and helpers;
`CameraWaypointPath` carries a byte-for-byte copy with `alpha` fixed to 0.7) -/

/-- `EPSILON` used by `_safeDivide` and `_extrapolate`. -/
def EPS : ℝ := 0.000001

/-- `_safeDivide(numerator, divisor)`: a ratio whose denominator is within
`EPSILON` of zero evaluates to 0. -/
noncomputable def safeDivide (numerator divisor : ℝ) : ℝ :=
  if |divisor| < EPS then 0 else numerator / divisor

/-- `_lerpVec3(a, b, t)`: linear interpolation with the parameter clamped to
`[0, 1]` first. -/
def lerpVec3 (a b : Vec3) (t : ℝ) : Vec3 :=
  let c := min (max t 0) 1
  ⟨a.x + c * (b.x - a.x), a.y + c * (b.y - a.y), a.z + c * (b.z - a.z)⟩

/-- The knot increment of `_getT`: `Math.pow(Math.max(distance, 1e-4), alpha)`. -/
noncomputable def knotStep (p q : Vec3) (alpha : ℝ) : ℝ :=
  (max (dist3 p q) 0.0001) ^ alpha

/-- `_getT(ti, p, q, alpha)`. -/
noncomputable def getT (ti : ℝ) (p q : Vec3) (alpha : ℝ) : ℝ :=
  ti + knotStep p q alpha

/-- `_catmullRom(p0, p1, p2, p3, t, alpha)`: the two-level blend between the
four control points at knot-space parameter `tt = t1 + (t2 - t1) * t`. -/
noncomputable def catmullRom (p0 p1 p2 p3 : Vec3) (t alpha : ℝ) : Vec3 :=
  let t0 : ℝ := 0
  let t1 := getT t0 p0 p1 alpha
  let t2 := getT t1 p1 p2 alpha
  let t3 := getT t2 p2 p3 alpha
  let tt := t1 + (t2 - t1) * t
  let A1 := lerpVec3 p0 p1 (safeDivide (tt - t0) (t1 - t0))
  let A2 := lerpVec3 p1 p2 (safeDivide (tt - t1) (t2 - t1))
  let A3 := lerpVec3 p2 p3 (safeDivide (tt - t2) (t3 - t2))
  let B1 := lerpVec3 A1 A2 (safeDivide (tt - t0) (t2 - t0))
  let B2 := lerpVec3 A2 A3 (safeDivide (tt - t1) (t3 - t1))
  lerpVec3 B1 B2 (safeDivide (tt - t1) (t2 - t1))

/-- `_extrapolate(point, reference, lengthFactor)`: normalize
`point - reference` (falling back to `+Z` when nearly zero) and step
`lengthFactor` units from `point` along it. -/
noncomputable def extrapolate (point reference : Vec3) (lengthFactor : ℝ) : Vec3 :=
  let dir := vsub point reference
  let dir2 := if lengthSq dir < EPS then (⟨0, 0, 1⟩ : Vec3) else dir
  vadd point (vscale (lengthFactor / norm3 dir2) dir2)

/-- The synthesized/boundary start control point of `_sampleCurve`:
`prevPoint ?? _extrapolate(points[0], points[1] || points[0], -2)`. -/
noncomputable def startBoundary (points : List Vec3) (prevPoint : Option Vec3) : Vec3 :=
  prevPoint.getD
    (extrapolate (points.getD 0 vzero) (points.getD 1 (points.getD 0 vzero)) (-2))

/-- The boundary end control point of `_sampleCurve`:
`nextPoint ?? _extrapolate(points[last], points[last-1] || points[last], 2)`. -/
noncomputable def endBoundary (points : List Vec3) (nextPoint : Option Vec3) : Vec3 :=
  nextPoint.getD
    (extrapolate (points.getD (points.length - 1) vzero)
      (points.getD (points.length - 2) (points.getD (points.length - 1) vzero)) 2)

/-- JS `Math.round` on the reals: half-up, i.e. `⌊x + 1/2⌋`. -/
noncomputable def jsRound (x : ℝ) : ℤ := ⌊x + 1 / 2⌋

/-- Per-interior-segment step count:
`Math.max(4, Math.round(sampleCount * (segmentLengths[i] / totalLength)))`. -/
noncomputable def stepsFor (sampleCount segLen totalLen : ℝ) : ℤ :=
  max 4 (jsRound (sampleCount * (segLen / totalLen)))

/-- The samples one interior segment contributes: `_catmullRom` at
`t = j / steps` for `j = 0, …, steps - 1`. -/
noncomputable def segmentSamples (p0 p1 p2 p3 : Vec3) (steps : ℤ) (alpha : ℝ) :
    List Vec3 :=
  (List.range steps.toNat).map fun (j : ℕ) =>
    catmullRom p0 p1 p2 p3 ((j : ℝ) / (steps : ℝ)) alpha

/-- `totalLength`: `this._chainLength(points) || 1` (0 is falsy). -/
noncomputable def totalLengthOf (points : List Vec3) : ℝ :=
  if chainLength points = 0 then 1 else chainLength points

/-- The `extended` control list `[startExtra, ...points, endExtra]`. -/
noncomputable def extendedPoints (points : List Vec3)
    (prevPoint nextPoint : Option Vec3) : List Vec3 :=
  startBoundary points prevPoint :: (points ++ [endBoundary points nextPoint])

/-- `_sampleCurve(points, prevPoint, nextPoint, sampleCount, alpha)`: chains of
fewer than 2 points are returned as-is; otherwise each of the
`points.length - 1` interior segments contributes its step samples over the
extended control list, and the exact final point is appended. -/
noncomputable def sampleCurve (points : List Vec3) (prevPoint nextPoint : Option Vec3)
    (sampleCount alpha : ℝ) : List Vec3 :=
  if points.length < 2 then points
  else
    ((List.range (points.length - 1)).flatMap fun i =>
      segmentSamples ((extendedPoints points prevPoint nextPoint).getD i vzero)
        ((extendedPoints points prevPoint nextPoint).getD (i + 1) vzero)
        ((extendedPoints points prevPoint nextPoint).getD (i + 2) vzero)
        ((extendedPoints points prevPoint nextPoint).getD (i + 3) vzero)
        (stepsFor sampleCount (dist3 (points.getD (i + 1) vzero) (points.getD i vzero))
          (totalLengthOf points))
        alpha)
    ++ [points.getD (points.length - 1) vzero]

/-- `WaypointPathBuilder.buildPath`'s per-segment sample budget:
`Math.max(this.minSamples, Math.ceil(distance * this.sampleDensity))`. -/
noncomputable def builderSampleCount (minSamples sampleDensity : ℝ)
    (points : List Vec3) : ℝ :=
  max minSamples ((⌈chainLength points * sampleDensity⌉ : ℤ) : ℝ)

/-- The samples `buildPath` stores for one segment's point chain. -/
noncomputable def builderSamples (minSamples sampleDensity alpha : ℝ)
    (points : List Vec3) (prevPoint nextPoint : Option Vec3) : List Vec3 :=
  sampleCurve points prevPoint nextPoint
    (builderSampleCount minSamples sampleDensity points) alpha

/-! ## Motion Sequencer (`CameraMover`, `CameraWaypointPath`)

Orientations are modelled symbolically by the Euler triple handed to
`Quat.setFromEulerAngles` (the claims only compare which waypoint's rotation a
task carries, never quaternion algebra); the entity's initial local rotation is
an arbitrary `Rot` value. -/
inductive Rot where
  | euler (x y z : ℝ)

/-- `_toQuat(value, fallbackQuat)` of `CameraWaypointPath` (and the
`!rot → fallback` pattern in `CameraMover`): a truthy x/y/z value becomes the
quaternion from its Euler angles, anything else keeps the fallback. -/
def toQuatOr (value : Option Vec3) (fallback : Rot) : Rot :=
  match value with
  | some v => Rot.euler v.x v.y v.z
  | none => fallback

/-- `path.rotations?.[endIndex]` with a possibly negative computed index:
rotation arrays hold Vec3 entries (always truthy), so the lookup is falsy
exactly when the index is out of range. -/
def lookupRot (rots : List Vec3) (i : ℤ) : Option Vec3 :=
  if i < 0 then none else rots[i.toNat]?

/-- `CameraMover._resolveRotation(path, endIndex, fallbackRot)`. -/
def resolveRotation (useRotations : Bool) (rots : List Vec3) (endIndex : ℤ)
    (fallback : Rot) : Rot :=
  if useRotations then toQuatOr (lookupRot rots endIndex) fallback else fallback

/-- One entry of `path.segments` consumed by `CameraMover.start`: `distance`
and `endIndex` may be absent (`??`/falsy fallbacks in the source). -/
structure MoverSeg where
  samples : List Vec3
  distance : Option ℝ
  startIndex : ℤ
  endIndex : Option ℤ

/-- `segment.distance || this._chainLength(samples)` (0 is falsy). -/
noncomputable def moverSegDistance (seg : MoverSeg) : ℝ :=
  match seg.distance with
  | some d => if d = 0 then chainLength seg.samples else d
  | none => chainLength seg.samples

/-- A curve-mode tween built by `CameraMover.start`, with the waypoint index
its completion callback reports. -/
structure MoverTask where
  samples : List Vec3
  fromRot : Rot
  toRot : Rot
  duration : ℝ
  waypointIndex : ℤ

/-- The segment loop of `CameraMover.start`: a segment with fewer than 2
samples is skipped by `continue` **before** `currentRot` is advanced; a usable
segment builds one tween and advances the rotation carry to its resolved
target. -/
noncomputable def buildMoverTasks (useRotations : Bool) (dpu minDur : ℝ)
    (rots : List Vec3) : List MoverSeg → Rot → List MoverTask
  | [], _ => []
  | seg :: rest, currentRot =>
    if seg.samples.length < 2 then
      buildMoverTasks useRotations dpu minDur rots rest currentRot
    else
      let duration := max (moverSegDistance seg * dpu) minDur
      let endIndex := seg.endIndex.getD (seg.startIndex + seg.samples.length - 1)
      let targetRot := resolveRotation useRotations rots endIndex currentRot
      { samples := seg.samples
        fromRot := currentRot
        toRot := targetRot
        duration := duration
        waypointIndex := endIndex } ::
        buildMoverTasks useRotations dpu minDur rots rest targetRot

/-- Events `CameraMover` can fire. -/
inductive MoverEvent where
  | waypoint (index : ℤ)
  | pathComplete
  | moverStopped
deriving DecidableEq

/-- The `path` payload `CameraMover.start` consumes. -/
structure MoverPath where
  segments : List MoverSeg
  rotations : List Vec3

/-- What `CameraMover.start` has done by the time it returns: the task chain it
built, the events it fired synchronously, and the `_running` flag. -/
structure MoverStartResult where
  tasks : List MoverTask
  immediateEvents : List MoverEvent
  running : Bool

/-- `CameraMover.start(path)`: `if (!path?.segments?.length) return;` leaves
everything untouched; otherwise the task chain is built and, when it is empty,
`_finish()` immediately fires `camera:path:complete`. -/
noncomputable def moverStart (prevRunning useRotations : Bool) (dpu minDur : ℝ)
    (path : Option MoverPath) (initialRot : Rot) : MoverStartResult :=
  match path with
  | none => ⟨[], [], prevRunning⟩
  | some p =>
    if p.segments.length = 0 then ⟨[], [], prevRunning⟩
    else
      let tasks := buildMoverTasks useRotations dpu minDur p.rotations p.segments initialRot
      if tasks.length = 0 then ⟨[], [MoverEvent.pathComplete], false⟩
      else ⟨tasks, [], true⟩

/-- `CameraWaypointPath._collectSegmentPoints(start, end, currentPos)`: the
running position followed by `_toVec3(positions[idx], currentPos)` for
`idx = start..end`. -/
def collectSegmentPoints (positions : List Vec3) (start endIdx : ℕ)
    (currentPos : Vec3) : List Vec3 :=
  currentPos ::
    (List.range' start (endIdx + 1 - start)).map fun idx => positions.getD idx currentPos

/-- A curve tween built by `CameraWaypointPath.startPath`. -/
structure CwpCurveTask where
  curvePoints : List Vec3
  fromRot : Rot
  toRot : Rot
  duration : ℝ
  waypointNumber : ℕ

/-- The segment loop of `CameraWaypointPath.startPath` (curve variant): a
segment whose collected point list has fewer than 2 entries is skipped, but the
position/rotation carry still advances to that segment's end waypoint's
resolved values; a usable segment samples its curve and advances the carry to
the curve's final point and the resolved target rotation. -/
noncomputable def cwpCurveLoop (positions : List Vec3) (rotations : List Vec3)
    (dpu minDur : ℝ) : List Segment → Vec3 → Rot → List CwpCurveTask
  | [], _, _ => []
  | seg :: rest, currentPos, currentRot =>
    let pathPoints := collectSegmentPoints positions seg.start seg.endIdx currentPos
    if pathPoints.length < 2 then
      cwpCurveLoop positions rotations dpu minDur rest
        (positions.getD seg.endIdx currentPos)
        (toQuatOr rotations[seg.endIdx]? currentRot)
    else
      let totalDistance := chainLength pathPoints
      let duration := max (totalDistance * dpu) minDur
      let curvePoints := sampleCurve pathPoints seg.prevPoint seg.nextPoint
        (max 24 ((⌈totalDistance * 6⌉ : ℤ) : ℝ)) 0.7
      let targetRot := toQuatOr rotations[seg.endIdx]? currentRot
      { curvePoints := curvePoints
        fromRot := currentRot
        toRot := targetRot
        duration := duration
        waypointNumber := seg.endIdx + 1 } ::
        cwpCurveLoop positions rotations dpu minDur rest
          (curvePoints.getD (curvePoints.length - 1) vzero) targetRot

/-- A linear-mode chain entry: a movement tween or the zero-distance wait tween
`app.tween({t:0}).to({t:0}, 0).delay(pause)`. -/
inductive SeqTask where
  | move (fromPos toPos : Vec3) (fromRot toRot : Rot) (duration : ℝ) (index : ℕ)
  | wait (delay : ℝ)

/-- Whether a chain entry is the zero-distance wait tween. -/
def SeqTask.isWait : SeqTask → Bool
  | SeqTask.wait _ => true
  | _ => false

/-- The delay of a wait entry, `none` for movement entries. -/
def SeqTask.waitDelay : SeqTask → Option ℝ
  | SeqTask.wait d => some d
  | _ => none

/-- The hop loop of `CameraMover.startFromWaypoints` from `i = 1`: one tween
per consecutive waypoint pair; `rots` is the rotation list already shifted to
the current target index. `data.pauses` is never consulted. -/
noncomputable def moverLinearGo (useRotations : Bool) (dpu minDur : ℝ) :
    Vec3 → List Vec3 → List Vec3 → Rot → ℕ → List SeqTask
  | _, [], _, _, _ => []
  | fromPos, toPos :: ps, rots, currentRot, i =>
    let duration := max (dist3 fromPos toPos * dpu) minDur
    let targetRot :=
      if useRotations then toQuatOr rots.head? currentRot else currentRot
    SeqTask.move fromPos toPos currentRot targetRot duration i ::
      moverLinearGo useRotations dpu minDur toPos ps rots.tail targetRot (i + 1)

/-- `CameraMover.startFromWaypoints(data)`'s task chain: note that
`data.pauses` is never read — linear mode in `CameraMover` has no wait tweens. -/
noncomputable def moverFromWaypoints (useRotations : Bool) (dpu minDur : ℝ)
    (data : WaypointData) (initialRot : Rot) : List SeqTask :=
  match data.positions with
  | [] => []
  | p0 :: ps =>
    moverLinearGo useRotations dpu minDur p0 ps (data.rotations.drop 1) initialRot 1

/-- The waypoint loop of the monolithic linear `CameraWaypointPath.startPath`
from `i = 0`: one tween per waypoint starting from the entity's current
position, plus a wait tween after any waypoint with a positive pause. -/
noncomputable def cwpLinearGo (dpu minDur : ℝ) :
    List Vec3 → List Vec3 → List ℝ → Vec3 → Rot → ℕ → List SeqTask
  | [], _, _, _, _, _ => []
  | p :: ps, rots, pauses, currentPos, currentRot, i =>
    let targetRot := toQuatOr rots.head? currentRot
    let duration := max (dist3 currentPos p * dpu) minDur
    let pause := pauses.headD 0
    SeqTask.move currentPos p currentRot targetRot duration (i + 1) ::
      ((if 0 < pause then [SeqTask.wait pause] else []) ++
        cwpLinearGo dpu minDur ps rots.tail pauses.tail p targetRot (i + 1))

/-- The full task chain of the monolithic linear `startPath`. -/
noncomputable def cwpLinearTasks (dpu minDur : ℝ) (data : WaypointData)
    (initialPos : Vec3) (initialRot : Rot) : List SeqTask :=
  cwpLinearGo dpu minDur data.positions data.rotations data.pauses initialPos initialRot 0

/-! ## Playback / cancellation (`CameraMover.stop` over the tween primitive)

The generic tween scheduler (`tween.mjs`) is not under `src/`; its chaining and
cancellation behaviour is modelled from the spec. -/

/-- Modelled from the spec: the controller-visible playback state — the ordered
pending/active task chain (`_tweens`, each entry tagged with the waypoint index
its completion callback reports), the `_running` flag, and the set of task ids
whose `tween.stop()` has been called (spec §5: a stopped task is detached and
its callbacks never run). -/
structure ChainState where
  tweens : List ℤ
  running : Bool
  cancelled : List ℤ

/-- `CameraMover.stop(restore)`: call `tween.stop()` on every chained tween,
clear `_tweens`, clear `_running`, and fire `camera:mover:stopped` only when
`restore` is set. -/
def moverStop (st : ChainState) (restore : Bool) : ChainState × List MoverEvent :=
  (⟨[], false, st.cancelled ++ st.tweens⟩,
    if restore then [MoverEvent.moverStopped] else [])

/-- Modelled from the spec: the tween primitive's firing rule (`tween.mjs` is
missing from `src/`) — per spec §5/§6 a chained task's completion callback can
run only while that task is the active head of the controller's chain and its
`stop()` has not been called; completing it fires the waypoint-reached
notification and activates the next task. -/
inductive ChainStep : ChainState → MoverEvent → ChainState → Prop
  | complete (st : ChainState) (t : ℤ) (rest : List ℤ) :
      st.tweens = t :: rest → t ∉ st.cancelled →
      ChainStep st (MoverEvent.waypoint t) ⟨rest, st.running, st.cancelled⟩

/-! ## Parser length facts (claim C1) -/

theorem parseCsv_lengths (lines : List CsvLine) :
    (parseCsv lines).positions.length = (parseCsv lines).pauses.length ∧
    (parseCsv lines).rotations.length = (parseCsv lines).positions.length := by
  induction lines with
  | nil => simp [parseCsv]
  | cons line rest ih =>
    simp only [parseCsv]
    split
    · exact ih
    · simp only [List.length_cons]
      exact ⟨by rw [ih.1], by rw [ih.2]⟩

theorem parseJson_lengths (rows : List JsonRow)
    (hpos : ∀ p r w, JsonRow.row p r w ∈ rows → p.isSome) :
    (parseJson rows).positions.length = (parseJson rows).pauses.length ∧
    (parseJson rows).rotations.length ≤ (parseJson rows).positions.length := by
  induction rows with
  | nil => simp [parseJson]
  | cons row rest ih =>
    have ih' := ih fun p r w hm => hpos p r w (List.mem_cons_of_mem _ hm)
    cases row with
    | null => simpa [parseJson] using ih'
    | row p r w =>
      have hp : p.isSome := hpos p r w (List.mem_cons_self _ _)
      obtain ⟨v, rfl⟩ := Option.isSome_iff_exists.mp hp
      cases r <;> simp [parseJson] <;> omega

/-- **C1** counterexample: the JSON array `[{ rotation: {x:1, y:2, z:3} }]` —
one accepted (non-null) row carrying a rotation but no position — parses to
`positions = []`, `rotations = [(1,2,3)]`, `pauses = [0]`, violating both
`positions.length == pauses.length` and `rotations.length <= positions.length`. -/
theorem c1_counterexample :
    ¬ ((parseJson [JsonRow.row none (some ⟨1, 2, 3⟩) 0]).positions.length =
        (parseJson [JsonRow.row none (some ⟨1, 2, 3⟩) 0]).pauses.length ∧
      (parseJson [JsonRow.row none (some ⟨1, 2, 3⟩) 0]).rotations.length ≤
        (parseJson [JsonRow.row none (some ⟨1, 2, 3⟩) 0]).positions.length) := by
  simp [parseJson]

/-- **C1** (amended): CSV parsing always yields `positions.length =
pauses.length` and `rotations.length = positions.length`; JSON parsing pushes
one pause per accepted row but positions/rotations only for truthy fields, so
the claimed invariant holds under the additional hypothesis that every
accepted JSON row carries a truthy position. -/
theorem c1_parse_invariant :
    (∀ lines : List CsvLine,
      (parseCsv lines).positions.length = (parseCsv lines).pauses.length ∧
      (parseCsv lines).rotations.length ≤ (parseCsv lines).positions.length) ∧
    (∀ rows : List JsonRow, (∀ p r w, JsonRow.row p r w ∈ rows → p.isSome) →
      (parseJson rows).positions.length = (parseJson rows).pauses.length ∧
      (parseJson rows).rotations.length ≤ (parseJson rows).positions.length) :=
  ⟨fun lines => ⟨(parseCsv_lengths lines).1, le_of_eq (parseCsv_lengths lines).2⟩,
    fun rows hpos => parseJson_lengths rows hpos⟩

/-- Witness for `c1_parse_invariant` at the spec's CSV scenario row
`"1,2,3,0,0,0,0.5"` and a one-row JSON array with a position. -/
theorem c1_parse_invariant_witness :
    ((∀ p r w, JsonRow.row p r w ∈ [JsonRow.row (some ⟨1, 2, 3⟩) none 0.5] → p.isSome) ∧
      (parseJson [JsonRow.row (some ⟨1, 2, 3⟩) none 0.5]).positions.length =
        (parseJson [JsonRow.row (some ⟨1, 2, 3⟩) none 0.5]).pauses.length) ∧
    (parseCsv [[some 1, some 2, some 3, some 0, some 0, some 0, some 0.5]]).positions.length =
      (parseCsv [[some 1, some 2, some 3, some 0, some 0, some 0, some 0.5]]).pauses.length := by
  have hyp : ∀ p r w, JsonRow.row p r w ∈ [JsonRow.row (some ⟨1, 2, 3⟩) none 0.5] →
      p.isSome := by
    intro p r w hm
    rw [List.mem_singleton] at hm
    cases hm
    rfl
  exact ⟨⟨hyp, (c1_parse_invariant.2 _ hyp).1⟩,
    (c1_parse_invariant.1 [[some 1, some 2, some 3, some 0, some 0, some 0, some 0.5]]).1⟩

/-! ## Empty-input start behaviour (claim C5) -/

theorem buildMoverTasks_nil_of_short (u : Bool) (dpu minDur : ℝ) (rots : List Vec3)
    (segs : List MoverSeg) (r : Rot) (h : ∀ s ∈ segs, s.samples.length < 2) :
    buildMoverTasks u dpu minDur rots segs r = [] := by
  induction segs generalizing r with
  | nil => rfl
  | cons s rest ih =>
    simp only [buildMoverTasks]
    rw [if_pos (h s (List.mem_cons_self _ _))]
    exact ih r fun s hs => h s (List.mem_cons_of_mem _ hs)

/-- **C5** counterexample: `CameraMover.start` invoked with a present but empty
segment list returns through the `!path?.segments?.length` guard without firing
anything — in particular no terminal path-complete notification — contrary to
the claim's "empty segment list immediately fires terminal completion". -/
theorem c5_counterexample :
    (moverStart false true 0.1 0.1 (some ⟨[], []⟩) (Rot.euler 0 0 0)).immediateEvents = [] ∧
    MoverEvent.pathComplete ∉
      (moverStart false true 0.1 0.1 (some ⟨[], []⟩) (Rot.euler 0 0 0)).immediateEvents := by
  constructor <;> simp [moverStart]

/-- **C5** (amended): `start` with an empty or absent segment list returns
immediately, firing nothing and building nothing; only when segments exist but
none is usable (every segment has fewer than 2 samples, so no task is built)
does `_finish` immediately fire the terminal path-complete notification with no
tasks created. -/
theorem c5_empty_start (prevRunning useRotations : Bool) (dpu minDur : ℝ)
    (segs : List MoverSeg) (rots : List Vec3) (r0 : Rot)
    (hne : segs ≠ []) (hshort : ∀ s ∈ segs, s.samples.length < 2) :
    moverStart prevRunning useRotations dpu minDur (some ⟨segs, rots⟩) r0 =
      ⟨[], [MoverEvent.pathComplete], false⟩ ∧
    moverStart prevRunning useRotations dpu minDur none r0 = ⟨[], [], prevRunning⟩ ∧
    moverStart prevRunning useRotations dpu minDur (some ⟨[], rots⟩) r0 =
      ⟨[], [], prevRunning⟩ := by
  refine ⟨?_, rfl, by simp [moverStart]⟩
  have htasks := buildMoverTasks_nil_of_short useRotations dpu minDur rots segs r0 hshort
  simp [moverStart, htasks, hne]

/-- Witness for `c5_empty_start`: one segment holding a single sample point. -/
theorem c5_empty_start_witness :
    (([⟨[vzero], none, 0, none⟩] : List MoverSeg) ≠ [] ∧
      ∀ s ∈ ([⟨[vzero], none, 0, none⟩] : List MoverSeg), s.samples.length < 2) ∧
    moverStart false true 0.1 0.1 (some ⟨[⟨[vzero], none, 0, none⟩], []⟩) (Rot.euler 0 0 0) =
      ⟨[], [MoverEvent.pathComplete], false⟩ := by
  have h1 : ([⟨[vzero], none, 0, none⟩] : List MoverSeg) ≠ [] := by simp
  have h2 : ∀ s ∈ ([⟨[vzero], none, 0, none⟩] : List MoverSeg), s.samples.length < 2 := by
    intro s hs
    rw [List.mem_singleton] at hs
    subst hs
    simp
  exact ⟨⟨h1, h2⟩, (c5_empty_start false true 0.1 0.1 _ [] _ h1 h2).1⟩

/-! ## Skipped-segment carry behaviour (claim C6) -/

/-- **C6** counterexample: a path whose first segment holds a single sample
(unusable, end waypoint 0 with rotation `(90,0,0)`) and whose second segment is
usable. `CameraMover.start` skips the first segment *without* advancing the
rotation carry, so the surviving task starts from the entity's initial
rotation, not from waypoint 0's resolved rotation `(90,0,0)` as the claim
requires. -/
theorem c6_counterexample :
    (buildMoverTasks true 1 0 [⟨90, 0, 0⟩, ⟨0, 90, 0⟩]
        [⟨[vzero], none, 0, some 0⟩, ⟨[vzero, ⟨1, 0, 0⟩], some 1, 1, some 1⟩]
        (Rot.euler 0 0 0)).map MoverTask.fromRot = [Rot.euler 0 0 0] ∧
    resolveRotation true [⟨90, 0, 0⟩, ⟨0, 90, 0⟩] 0 (Rot.euler 0 0 0) =
      Rot.euler 90 0 0 ∧
    Rot.euler 0 0 0 ≠ Rot.euler 90 0 0 := by
  refine ⟨?_, ?_, ?_⟩
  · simp [buildMoverTasks, resolveRotation, lookupRot, toQuatOr]
  · simp [resolveRotation, lookupRot, toQuatOr]
  · intro h
    injection h with h1 _ _
    norm_num at h1

/-- **C6** (amended): the two variants diverge. In `CameraMover.start`, a
segment with fewer than 2 samples is skipped without creating a task *and
without touching the carried rotation* — dropping all unusable segments leaves
the built chain unchanged. In `CameraWaypointPath.startPath`, a skipped segment
does advance the carried position/rotation to its end-waypoint's resolved
values before the next segment is processed. -/
theorem c6_skip_carry :
    (∀ (u : Bool) (dpu minDur : ℝ) (rots : List Vec3) (segs : List MoverSeg) (r : Rot),
      buildMoverTasks u dpu minDur rots (segs.filter fun s => 2 ≤ s.samples.length) r =
        buildMoverTasks u dpu minDur rots segs r) ∧
    (∀ (positions rotations : List Vec3) (dpu minDur : ℝ) (seg : Segment)
      (rest : List Segment) (pos : Vec3) (rot : Rot),
      (collectSegmentPoints positions seg.start seg.endIdx pos).length < 2 →
      cwpCurveLoop positions rotations dpu minDur (seg :: rest) pos rot =
        cwpCurveLoop positions rotations dpu minDur rest
          (positions.getD seg.endIdx pos)
          (toQuatOr rotations[seg.endIdx]? rot)) := by
  constructor
  · intro u dpu minDur rots segs
    induction segs with
    | nil => intro r; rfl
    | cons s rest ih =>
      intro r
      by_cases hs : s.samples.length < 2
      · rw [List.filter_cons_of_neg (by simpa using hs)]
        rw [ih r]
        conv_rhs => rw [buildMoverTasks]
        rw [if_pos hs]
      · rw [List.filter_cons_of_pos (by simpa using Nat.le_of_not_lt hs)]
        simp only [buildMoverTasks]
        rw [if_neg hs, if_neg hs, ih]
  · intro positions rotations dpu minDur seg rest pos rot h
    simp only [cwpCurveLoop]
    rw [if_pos h]

/-- Witness for `c6_skip_carry`: a degenerate segment (`start = 1 > end = 0`)
whose collected point list has a single entry. -/
theorem c6_skip_carry_witness :
    (collectSegmentPoints [vzero] 1 0 vzero).length < 2 ∧
    cwpCurveLoop [vzero] [⟨90, 0, 0⟩] 1 0 [⟨1, 0, none, none⟩] vzero (Rot.euler 0 0 0) =
      cwpCurveLoop [vzero] [⟨90, 0, 0⟩] 1 0 []
        (([vzero] : List Vec3).getD 0 vzero)
        (toQuatOr ([(⟨90, 0, 0⟩ : Vec3)] : List Vec3)[0]? (Rot.euler 0 0 0)) := by
  have h : (collectSegmentPoints [vzero] 1 0 vzero).length < 2 := by
    simp [collectSegmentPoints]
  exact ⟨h, c6_skip_carry.2 [vzero] [⟨90, 0, 0⟩] 1 0 ⟨1, 0, none, none⟩ [] vzero
    (Rot.euler 0 0 0) h⟩

/-! ## Linear-mode task chains (claim C7) -/

/-- The from/to positions of a movement entry. -/
def SeqTask.movePos : SeqTask → Option (Vec3 × Vec3)
  | SeqTask.move a b _ _ _ _ => some (a, b)
  | _ => none

/-- The duration of a movement entry. -/
def SeqTask.moveDuration : SeqTask → Option ℝ
  | SeqTask.move _ _ _ _ d _ => some d
  | _ => none

/-- The waypoint index a movement entry reports on completion. -/
def SeqTask.moveIndex : SeqTask → Option ℕ
  | SeqTask.move _ _ _ _ _ i => some i
  | _ => none

/-- The wait delays occurring in a chain, in order. -/
noncomputable def waitDelays (l : List SeqTask) : List ℝ :=
  l.filterMap SeqTask.waitDelay

/-- The number of movement entries in a chain. -/
def moveCount (l : List SeqTask) : ℕ :=
  (l.filter fun t => !t.isWait).length

theorem moverLinearGo_spec (u : Bool) (dpu minDur : ℝ) (ps : List Vec3) :
    ∀ (fromPos : Vec3) (rots : List Vec3) (rot : Rot) (i : ℕ),
      (moverLinearGo u dpu minDur fromPos ps rots rot i).length = ps.length ∧
      (∀ t ∈ moverLinearGo u dpu minDur fromPos ps rots rot i, t.isWait = false) ∧
      (∀ k, k < ps.length →
        ((moverLinearGo u dpu minDur fromPos ps rots rot i).getD k
            (SeqTask.wait 0)).movePos =
          some ((fromPos :: ps).getD k vzero, ps.getD k vzero) ∧
        ((moverLinearGo u dpu minDur fromPos ps rots rot i).getD k
            (SeqTask.wait 0)).moveDuration =
          some (max (dist3 ((fromPos :: ps).getD k vzero) (ps.getD k vzero) * dpu) minDur) ∧
        ((moverLinearGo u dpu minDur fromPos ps rots rot i).getD k
            (SeqTask.wait 0)).moveIndex = some (i + k)) := by
  induction ps with
  | nil =>
    intro fromPos rots rot i
    refine ⟨rfl, by simp [moverLinearGo], by simp⟩
  | cons p ps ih =>
    intro fromPos rots rot i
    simp only [moverLinearGo]
    refine ⟨by simp [(ih p rots.tail _ (i + 1)).1], ?_, ?_⟩
    · intro t ht
      rcases List.mem_cons.mp ht with h | h
      · subst h; rfl
      · exact (ih p rots.tail _ (i + 1)).2.1 t h
    · intro k hk
      match k with
      | 0 => exact ⟨rfl, rfl, by simp [SeqTask.moveIndex]⟩
      | Nat.succ k =>
        have hk' : k < ps.length := by simpa using hk
        have := (ih p rots.tail
          (if u then toQuatOr rots.head? rot else rot) (i + 1)).2.2 k hk'
        refine ⟨?_, ?_, ?_⟩
        · simpa using this.1
        · simpa using this.2.1
        · have h3 := this.2.2
          simp only [List.getD_cons_succ]
          rw [h3]
          congr 1
          omega

theorem waitDelays_cons_move (a b : Vec3) (c d : Rot) (e : ℝ) (f : ℕ)
    (l : List SeqTask) :
    waitDelays (SeqTask.move a b c d e f :: l) = waitDelays l := rfl

theorem waitDelays_cons_wait (d : ℝ) (l : List SeqTask) :
    waitDelays (SeqTask.wait d :: l) = d :: waitDelays l := rfl

theorem waitDelays_append (l1 l2 : List SeqTask) :
    waitDelays (l1 ++ l2) = waitDelays l1 ++ waitDelays l2 :=
  List.filterMap_append _ _ _

theorem moveCount_cons_move (a b : Vec3) (c d : Rot) (e : ℝ) (f : ℕ)
    (l : List SeqTask) :
    moveCount (SeqTask.move a b c d e f :: l) = moveCount l + 1 := by
  simp [moveCount, List.filter_cons, SeqTask.isWait]

theorem moveCount_cons_wait (d : ℝ) (l : List SeqTask) :
    moveCount (SeqTask.wait d :: l) = moveCount l := by
  simp [moveCount, List.filter_cons, SeqTask.isWait]

theorem moveCount_append (l1 l2 : List SeqTask) :
    moveCount (l1 ++ l2) = moveCount l1 + moveCount l2 := by
  simp [moveCount, List.filter_append]

/-- The positive entries among the first `n` pause values, in order — the wait
schedule the claim predicts for a waypoint list of length `n`. -/
noncomputable def positivePauses : ℕ → List ℝ → List ℝ
  | 0, _ => []
  | n + 1, pauses =>
    (if 0 < pauses.headD 0 then [pauses.headD 0] else []) ++
      positivePauses n pauses.tail

theorem cwpLinearGo_spec (dpu minDur : ℝ) (ps : List Vec3) :
    ∀ (rots : List Vec3) (pauses : List ℝ) (curPos : Vec3) (rot : Rot) (i : ℕ),
      waitDelays (cwpLinearGo dpu minDur ps rots pauses curPos rot i) =
        positivePauses ps.length pauses ∧
      moveCount (cwpLinearGo dpu minDur ps rots pauses curPos rot i) = ps.length := by
  induction ps with
  | nil =>
    intro rots pauses curPos rot i
    exact ⟨rfl, rfl⟩
  | cons p ps ih =>
    intro rots pauses curPos rot i
    have ihx := ih rots.tail pauses.tail p (toQuatOr rots.head? rot) (i + 1)
    simp only [cwpLinearGo, List.length_cons, positivePauses]
    by_cases hp : (0 : ℝ) < pauses.headD 0
    · rw [if_pos hp, if_pos hp]
      constructor
      · rw [waitDelays_cons_move, List.singleton_append,
          waitDelays_cons_wait, ihx.1]
        rfl
      · rw [moveCount_cons_move, List.singleton_append,
          moveCount_cons_wait, ihx.2]
    · rw [if_neg hp, if_neg hp]
      constructor
      · rw [waitDelays_cons_move, List.nil_append, ihx.1]
        rfl
      · rw [moveCount_cons_move, List.nil_append, ihx.2]

/-- **C7** counterexample: waypoint data `positions = [(0,0,0), (10,0,0)]`,
`pauses = [0, 5]` — the hop targeting waypoint 1 requests a 5-second pause, so
the claim demands a wait task after it, yet `CameraMover.startFromWaypoints`
(the linear mode of the modular variant) builds exactly one task and no wait:
`data.pauses` is never read. -/
theorem c7_counterexample :
    (0 : ℝ) < 5 ∧
    (moverFromWaypoints true 0.1 0.1 ⟨[vzero, ⟨10, 0, 0⟩], [], [0, 5]⟩
      (Rot.euler 0 0 0)).length = 1 ∧
    ∀ t ∈ moverFromWaypoints true 0.1 0.1 ⟨[vzero, ⟨10, 0, 0⟩], [], [0, 5]⟩
      (Rot.euler 0 0 0), t.isWait = false := by
  refine ⟨by norm_num, ?_, ?_⟩
  · simp [moverFromWaypoints, moverLinearGo]
  · intro t ht
    simp only [moverFromWaypoints, moverLinearGo, List.mem_singleton] at ht
    subst ht
    rfl

/-- **C7** (amended): the two linear implementations each satisfy half the
claim. `CameraMover.startFromWaypoints` builds exactly one movement task per
consecutive waypoint pair with duration `max(distance × durationPerUnit,
minDuration)` and waypoint indices `1, 2, …`, but never inserts wait tasks
(pauses are ignored). The monolithic `CameraWaypointPath.startPath` builds one
movement task per waypoint — including an initial hop from the entity's
current position to waypoint 0 — and inserts one wait task of exactly the
pause duration after each hop whose target waypoint has a positive pause, so
its wait delays are exactly the positive pauses in order. -/
theorem c7_linear_chain :
    (∀ (u : Bool) (dpu minDur : ℝ) (data : WaypointData) (r0 : Rot),
      (moverFromWaypoints u dpu minDur data r0).length = data.positions.length - 1 ∧
      (∀ t ∈ moverFromWaypoints u dpu minDur data r0, t.isWait = false) ∧
      (∀ k, k + 1 < data.positions.length →
        ((moverFromWaypoints u dpu minDur data r0).getD k (SeqTask.wait 0)).movePos =
          some (data.positions.getD k vzero, data.positions.getD (k + 1) vzero) ∧
        ((moverFromWaypoints u dpu minDur data r0).getD k (SeqTask.wait 0)).moveDuration =
          some (max (dist3 (data.positions.getD k vzero)
            (data.positions.getD (k + 1) vzero) * dpu) minDur) ∧
        ((moverFromWaypoints u dpu minDur data r0).getD k (SeqTask.wait 0)).moveIndex =
          some (k + 1))) ∧
    (∀ (dpu minDur : ℝ) (data : WaypointData) (p0 : Vec3) (r0 : Rot),
      waitDelays (cwpLinearTasks dpu minDur data p0 r0) =
        positivePauses data.positions.length data.pauses ∧
      moveCount (cwpLinearTasks dpu minDur data p0 r0) = data.positions.length ∧
      (∀ q qs, data.positions = q :: qs →
        (cwpLinearTasks dpu minDur data p0 r0).head? =
          some (SeqTask.move p0 q r0 (toQuatOr data.rotations.head? r0)
            (max (dist3 p0 q * dpu) minDur) 1))) := by
  constructor
  · intro u dpu minDur data r0
    match hpos : data.positions with
    | [] => simp [moverFromWaypoints, hpos]
    | p0 :: ps =>
      have hgo := moverLinearGo_spec u dpu minDur ps p0 (data.rotations.drop 1) r0 1
      simp only [moverFromWaypoints, hpos]
      refine ⟨by simpa using hgo.1, hgo.2.1, ?_⟩
      intro k hk
      have hk' : k < ps.length := by
        simpa [hpos] using hk
      have h := hgo.2.2 k hk'
      refine ⟨?_, ?_, ?_⟩
      · rw [h.1]
        rfl
      · rw [h.2.1]
        rfl
      · rw [h.2.2]
        congr 1
        omega
  · intro dpu minDur data p0 r0
    have h := cwpLinearGo_spec dpu minDur data.positions data.rotations data.pauses p0 r0 0
    refine ⟨h.1, h.2, ?_⟩
    intro q qs hpos
    simp [cwpLinearTasks, hpos, cwpLinearGo]

/-- Witness for `c7_linear_chain`: the spec's scenario
`positions = [(0,0,0), (10,0,0), (10,0,10)]`, no rotations, no pauses,
`durationPerUnit = 0.1`, `minDuration = 0.1` — two hops reported at waypoint
indices 1 and 2. -/
theorem c7_linear_chain_witness :
    (0 + 1 < ([vzero, ⟨10, 0, 0⟩, ⟨10, 0, 10⟩] : List Vec3).length ∧
      1 + 1 < ([vzero, ⟨10, 0, 0⟩, ⟨10, 0, 10⟩] : List Vec3).length) ∧
    (moverFromWaypoints true 0.1 0.1 ⟨[vzero, ⟨10, 0, 0⟩, ⟨10, 0, 10⟩], [], []⟩
      (Rot.euler 0 0 0)).length = 2 ∧
    ((moverFromWaypoints true 0.1 0.1 ⟨[vzero, ⟨10, 0, 0⟩, ⟨10, 0, 10⟩], [], []⟩
      (Rot.euler 0 0 0)).getD 0 (SeqTask.wait 0)).moveIndex = some 1 ∧
    ((moverFromWaypoints true 0.1 0.1 ⟨[vzero, ⟨10, 0, 0⟩, ⟨10, 0, 10⟩], [], []⟩
      (Rot.euler 0 0 0)).getD 1 (SeqTask.wait 0)).moveIndex = some 2 := by
  have h := (c7_linear_chain.1 true 0.1 0.1
    ⟨[vzero, ⟨10, 0, 0⟩, ⟨10, 0, 10⟩], [], []⟩ (Rot.euler 0 0 0))
  exact ⟨⟨by simp, by simp⟩, by simpa using h.1,
    (h.2.2 0 (by simp)).2.2, (h.2.2 1 (by simp)).2.2⟩

/-! ## Stop cancels everything (claim C8) -/

/-- **C8**: after `CameraMover.stop` returns, the task list is empty, the
running flag is false, every previously pending/active tween has been
cancelled, no chain transition (and hence no waypoint-reached notification)
is possible from the resulting state, and `stop` itself fires no
waypoint-reached notification. -/
theorem c8_stop_cancels (st : ChainState) (restore : Bool) :
    (moverStop st restore).1.tweens = [] ∧
    (moverStop st restore).1.running = false ∧
    (∀ t ∈ st.tweens, t ∈ (moverStop st restore).1.cancelled) ∧
    (∀ e st', ¬ ChainStep (moverStop st restore).1 e st') ∧
    (∀ i, MoverEvent.waypoint i ∉ (moverStop st restore).2) := by
  refine ⟨rfl, rfl, ?_, ?_, ?_⟩
  · intro t ht
    simp only [moverStop, List.mem_append]
    exact Or.inr ht
  · intro e st' h
    cases h with
    | complete t rest heq hnc => simp [moverStop] at heq
  · intro i
    cases restore <;> simp [moverStop]

/-! ## Segmenter partition facts (claim C2) -/

theorem zip_tail_lt {l : List ℕ} (hs : l.Sorted (· < ·)) :
    ∀ p ∈ l.zip l.tail, p.1 < p.2 := by
  induction l with
  | nil => simp
  | cons a t ih =>
    cases t with
    | nil => simp
    | cons b t' =>
      intro p hp
      rcases List.mem_cons.mp hp with h | h
      · subst h
        exact (List.sorted_cons.mp hs).1 b (List.mem_cons_self _ _)
      · exact ih hs.of_cons p h

theorem zip_tail_chain (l : List ℕ) :
    List.Chain' (fun p q : ℕ × ℕ => p.2 = q.1) (l.zip l.tail) := by
  induction l with
  | nil => simp
  | cons a t ih =>
    cases t with
    | nil => simp
    | cons b t' =>
      cases t' with
      | nil => simp
      | cons c t'' =>
        refine List.chain'_cons.mpr ⟨rfl, ?_⟩
        exact ih

theorem zip_tail_getLast (a b : ℕ) (t : List ℕ) :
    (((a :: b :: t).zip (b :: t)).getLast?).map Prod.snd = (b :: t).getLast? := by
  induction t generalizing a b with
  | nil => rfl
  | cons c t'' ih =>
    have step : ((a :: b :: c :: t'').zip (b :: c :: t'')).getLast? =
        (((b :: c :: t'').zip (c :: t''))).getLast? := by
      simp [List.zip_cons_cons, List.getLast?_cons_cons]
    rw [step, ih b c, List.getLast?_cons_cons]

theorem sorted_head_eq_zero {a : ℕ} {t : List ℕ} (hs : (a :: t).Sorted (· < ·))
    (h0 : 0 ∈ a :: t) : a = 0 := by
  rcases List.mem_cons.mp h0 with h | h
  · omega
  · have := (List.sorted_cons.mp hs).1 0 h
    omega

theorem sorted_getLast_eq {l : List ℕ} (hs : l.Sorted (· < ·)) {M : ℕ}
    (hM : M ∈ l) (hub : ∀ x ∈ l, x ≤ M) : l.getLast? = some M := by
  induction l with
  | nil => simp at hM
  | cons a t ih =>
    cases t with
    | nil =>
      rw [List.mem_singleton] at hM
      subst hM
      rfl
    | cons b t' =>
      rw [List.getLast?_cons_cons]
      rcases List.mem_cons.mp hM with h | h
      · exfalso
        have hb : a < b := (List.sorted_cons.mp hs).1 b (List.mem_cons_self _ _)
        have := hub b (List.mem_cons_of_mem _ (List.mem_cons_self _ _))
        omega
      · exact ih hs.of_cons h fun x hx => hub x (List.mem_cons_of_mem _ hx)

theorem stopIndices_sorted (L : ℕ) (pauses : List ℝ) :
    (stopIndices L pauses).Sorted (· < ·) :=
  Finset.sort_sorted_lt _

theorem mem_stopIndices (L : ℕ) (pauses : List ℝ) (i : ℕ) :
    i ∈ stopIndices L pauses ↔ i ∈ stopSet L pauses :=
  Finset.mem_sort _

theorem mem_stopSet_iff (L : ℕ) (pauses : List ℝ) (i : ℕ) :
    i ∈ stopSet L pauses ↔
      i = 0 ∨ i = L - 1 ∨ (i < L ∧ 0 < pauses.getD i 0) := by
  simp [stopSet, Finset.mem_union, Finset.mem_insert, Finset.mem_singleton,
    Finset.mem_filter, Finset.mem_range]

theorem stopIndices_two_le_length (L : ℕ) (pauses : List ℝ) (hL : 2 ≤ L) :
    2 ≤ (stopIndices L pauses).length := by
  rw [stopIndices, Finset.length_sort]
  have hsub : ({0, L - 1} : Finset ℕ) ⊆ stopSet L pauses :=
    Finset.subset_union_left
  have hcard : ({0, L - 1} : Finset ℕ).card = 2 := by
    rw [Finset.card_insert_of_not_mem (by simp; omega), Finset.card_singleton]
  calc 2 = ({0, L - 1} : Finset ℕ).card := hcard.symm
    _ ≤ (stopSet L pauses).card := Finset.card_le_card hsub

theorem stopIndices_le (L : ℕ) (pauses : List ℝ) (hL : 2 ≤ L) :
    ∀ x ∈ stopIndices L pauses, x ≤ L - 1 := by
  intro x hx
  rcases (mem_stopSet_iff L pauses x).mp ((mem_stopIndices L pauses x).mp hx) with
    h | h | h <;> omega

theorem filterMap_eq_map_of_lt (pairs : List (ℕ × ℕ)) (positions : List Vec3)
    (hlt : ∀ p ∈ pairs, p.1 < p.2) :
    (pairs.filterMap fun p =>
      if p.2 ≤ p.1 then none
      else some
        { start := p.1
          endIdx := p.2
          prevPoint :=
            if 0 < p.1 then some (positions.getD (p.1 - 1) vzero) else none
          nextPoint :=
            if p.2 + 1 < positions.length then
              some (positions.getD (p.2 + 1) vzero) else none
          : Segment }) =
    pairs.map fun p =>
      { start := p.1
        endIdx := p.2
        prevPoint :=
          if 0 < p.1 then some (positions.getD (p.1 - 1) vzero) else none
        nextPoint :=
          if p.2 + 1 < positions.length then
            some (positions.getD (p.2 + 1) vzero) else none
        : Segment } := by
  induction pairs with
  | nil => rfl
  | cons p ps ih =>
    rw [List.filterMap_cons, List.map_cons]
    rw [if_neg (by have := hlt p (List.mem_cons_self _ _); omega)]
    rw [ih fun q hq => hlt q (List.mem_cons_of_mem _ hq)]

theorem map_getLast?_comm {α β : Type} (f : α → β) (l : List α) :
    (l.map f).getLast? = l.getLast?.map f := by
  induction l with
  | nil => rfl
  | cons a t ih =>
    cases t with
    | nil => rfl
    | cons b t' =>
      simp only [List.map_cons] at ih ⊢
      rw [List.getLast?_cons_cons, List.getLast?_cons_cons]
      simpa using ih

/-- **C2**: for waypoint arrays of length `L ≥ 2` the stop set is exactly
`{0, L-1} ∪ {i < L : pauses[i] > 0}`, the Segmenter emits `stops.length - 1`
segments whose ranges partition `[0, L-1]` — first start `0`, last end `L-1`,
each start strictly below its end, consecutive segments sharing the interior
stop as one's end and the next's start — and with no positive pauses exactly
one segment `[0, L-1]` (with no outer boundary points) is produced. -/
theorem c2_segmenter (positions : List Vec3) (pauses : List ℝ)
    (hL : 2 ≤ positions.length) :
    (∀ i, i ∈ stopSet positions.length pauses ↔
      (i = 0 ∨ i = positions.length - 1 ∨
        (i < positions.length ∧ 0 < pauses.getD i 0))) ∧
    buildSegments positions pauses ≠ [] ∧
    (buildSegments positions pauses).head?.map Segment.start = some 0 ∧
    (buildSegments positions pauses).getLast?.map Segment.endIdx =
      some (positions.length - 1) ∧
    (∀ s ∈ buildSegments positions pauses, s.start < s.endIdx) ∧
    List.Chain' (fun s1 s2 => s1.endIdx = s2.start) (buildSegments positions pauses) ∧
    (buildSegments positions pauses).length + 1 =
      (stopIndices positions.length pauses).length ∧
    ((∀ i, pauses.getD i 0 ≤ 0) → buildSegments positions pauses =
      [⟨0, positions.length - 1, none, none⟩]) := by
  set L := positions.length with hLdef
  have hsorted := stopIndices_sorted L pauses
  have hlen2 := stopIndices_two_le_length L pauses hL
  have hpairs_lt : ∀ p ∈ (stopIndices L pauses).zip (stopIndices L pauses).tail,
      p.1 < p.2 := zip_tail_lt hsorted
  have hsegs : buildSegments positions pauses =
      ((stopIndices L pauses).zip (stopIndices L pauses).tail).map fun p =>
        { start := p.1
          endIdx := p.2
          prevPoint :=
            if 0 < p.1 then some (positions.getD (p.1 - 1) vzero) else none
          nextPoint :=
            if p.2 + 1 < positions.length then
              some (positions.getD (p.2 + 1) vzero) else none
          : Segment } := by
    simp only [buildSegments]
    exact filterMap_eq_map_of_lt _ positions hpairs_lt
  obtain ⟨a, b, t, hl⟩ : ∃ a b t, stopIndices L pauses = a :: b :: t := by
    match hm : stopIndices L pauses with
    | [] => rw [hm] at hlen2; simp at hlen2
    | [x] => rw [hm] at hlen2; simp at hlen2
    | x :: y :: t => exact ⟨x, y, t, rfl⟩
  have h0mem : 0 ∈ stopIndices L pauses :=
    (mem_stopIndices L pauses 0).mpr ((mem_stopSet_iff L pauses 0).mpr (Or.inl rfl))
  have hLmem : L - 1 ∈ stopIndices L pauses :=
    (mem_stopIndices L pauses (L - 1)).mpr
      ((mem_stopSet_iff L pauses (L - 1)).mpr (Or.inr (Or.inl rfl)))
  have ha : a = 0 := by
    apply sorted_head_eq_zero (hl ▸ hsorted)
    exact hl ▸ h0mem
  have hlast : (stopIndices L pauses).getLast? = some (L - 1) :=
    sorted_getLast_eq hsorted hLmem (stopIndices_le L pauses hL)
  refine ⟨mem_stopSet_iff L pauses, ?_, ?_, ?_, ?_, ?_, ?_, ?_⟩
  · rw [hsegs, hl]
    simp [List.zip_cons_cons]
  · rw [hsegs, hl]
    simp [List.zip_cons_cons, ha]
  · rw [hsegs, map_getLast?_comm]
    have h2 : ((stopIndices L pauses).zip
        (stopIndices L pauses).tail).getLast?.map Prod.snd = some (L - 1) := by
      rw [hl]
      rw [show (a :: b :: t).tail = b :: t from rfl]
      rw [zip_tail_getLast a b t]
      have hx := hlast
      rw [hl, List.getLast?_cons_cons] at hx
      exact hx
    rcases hzl : ((stopIndices L pauses).zip
        (stopIndices L pauses).tail).getLast? with _ | p
    · rw [hzl] at h2; simp at h2
    · rw [hzl, Option.map_some'] at h2
      simp only [Option.map_some']
      exact h2
  · intro s hs
    rw [hsegs] at hs
    obtain ⟨p, hp, rfl⟩ := List.mem_map.mp hs
    exact hpairs_lt p hp
  · rw [hsegs]
    rw [List.chain'_map]
    exact zip_tail_chain _
  · rw [hsegs, List.length_map, List.length_zip, List.length_tail]
    have : 2 ≤ (stopIndices L pauses).length := hlen2
    omega
  · intro hnp
    have hfilter : (Finset.range L).filter (fun i => 0 < pauses.getD i 0) = ∅ :=
      Finset.filter_false_of_mem fun i _ => not_lt.mpr (hnp i)
    have hset : stopSet L pauses = {0, L - 1} := by
      rw [stopSet, hfilter, Finset.union_empty]
    have hcard : (stopIndices L pauses).length = 2 := by
      rw [stopIndices, Finset.length_sort, hset]
      rw [Finset.card_insert_of_not_mem (by simp; omega), Finset.card_singleton]
    have ht : t = [] := by
      rw [hl] at hcard
      simpa using hcard
    have hb : b = L - 1 := by
      have hbmem : b ∈ stopIndices L pauses := by
        rw [hl]
        exact List.mem_cons_of_mem _ (List.mem_cons_self _ _)
      have := (mem_stopSet_iff L pauses b).mp ((mem_stopIndices L pauses b).mp hbmem)
      have hab : a < b := by
        have := hl ▸ hsorted
        exact (List.sorted_cons.mp this).1 b (by simp)
      rcases this with h | h | h
      · omega
      · exact h
      · exfalso
        exact absurd h.2 (not_lt.mpr (hnp b))
    rw [hsegs, hl, ht, ha, hb]
    simp only [List.zip_cons_cons, List.tail_cons, List.zip_nil_right,
      List.map_cons, List.map_nil]
    congr 1
    have hp1 : ¬ (0 : ℕ) < 0 := by omega
    have hp2 : ¬ (L - 1 + 1 < positions.length) := by omega
    simp [hp1, hp2]

/-- Witness for `c2_segmenter`: three waypoints with a pause at index 1. -/
theorem c2_segmenter_witness :
    2 ≤ ([vzero, ⟨1, 0, 0⟩, ⟨2, 0, 0⟩] : List Vec3).length ∧
    buildSegments [vzero, ⟨1, 0, 0⟩, ⟨2, 0, 0⟩] [0, 1, 0] ≠ [] ∧
    List.Chain' (fun s1 s2 => s1.endIdx = s2.start)
      (buildSegments [vzero, ⟨1, 0, 0⟩, ⟨2, 0, 0⟩] [0, 1, 0]) := by
  have h : 2 ≤ ([vzero, ⟨1, 0, 0⟩, ⟨2, 0, 0⟩] : List Vec3).length := by simp
  have hc := c2_segmenter [vzero, ⟨1, 0, 0⟩, ⟨2, 0, 0⟩] [0, 1, 0] h
  exact ⟨h, hc.2.1, hc.2.2.2.2.2.1⟩

/-! ## Spline Sampler endpoint facts (claims C3, C4) -/

theorem vec3_eq {a b : Vec3} (hx : a.x = b.x) (hy : a.y = b.y) (hz : a.z = b.z) :
    a = b := by
  cases a; cases b; simp_all

theorem safeDivide_zero_num (d : ℝ) : safeDivide 0 d = 0 := by
  unfold safeDivide
  split <;> simp

theorem safeDivide_self {x : ℝ} (h : EPS ≤ |x|) : safeDivide x x = 1 := by
  unfold safeDivide
  rw [if_neg (not_lt.mpr h)]
  have hx : x ≠ 0 := by
    intro h0
    rw [h0] at h
    norm_num [EPS] at h
  exact div_self hx

theorem safeDivide_nonpos {n d : ℝ} (hn : n ≤ 0) (hd : 0 ≤ d) :
    safeDivide n d ≤ 0 := by
  unfold safeDivide
  split
  · exact le_refl 0
  · exact div_nonpos_of_nonpos_of_nonneg hn hd

theorem lerpVec3_one (a b : Vec3) : lerpVec3 a b 1 = b := by
  refine vec3_eq ?_ ?_ ?_ <;> simp [lerpVec3]

theorem lerpVec3_zero (a b : Vec3) : lerpVec3 a b 0 = a := by
  refine vec3_eq ?_ ?_ ?_ <;> simp [lerpVec3]

theorem lerpVec3_nonpos {t : ℝ} (a b : Vec3) (h : t ≤ 0) : lerpVec3 a b t = a := by
  have hc : min (max t 0) 1 = 0 := by
    rw [max_eq_right h]
    norm_num
  refine vec3_eq ?_ ?_ ?_ <;> simp [lerpVec3, hc]

theorem lerpVec3_self (a : Vec3) (t : ℝ) : lerpVec3 a a t = a := by
  refine vec3_eq ?_ ?_ ?_ <;> simp [lerpVec3]

theorem knotStep_pos (p q : Vec3) (alpha : ℝ) : 0 < knotStep p q alpha := by
  unfold knotStep
  exact Real.rpow_pos_of_pos (lt_max_of_lt_right (by norm_num)) alpha

theorem knotStep_ge_eps (p q : Vec3) {alpha : ℝ} (h0 : 0 ≤ alpha) (h1 : alpha ≤ 1) :
    EPS ≤ knotStep p q alpha := by
  unfold knotStep
  set base := max (dist3 p q) 0.0001 with hbase
  have hbpos : (0 : ℝ) < base := lt_max_of_lt_right (by norm_num)
  have hb4 : (0.0001 : ℝ) ≤ base := le_max_right _ _
  by_cases hb1 : base ≤ 1
  · have h := Real.rpow_le_rpow_of_exponent_ge hbpos hb1 h1
    rw [Real.rpow_one] at h
    calc EPS ≤ 0.0001 := by norm_num [EPS]
      _ ≤ base := hb4
      _ ≤ base ^ alpha := h
  · push_neg at hb1
    have h := Real.one_le_rpow (le_of_lt hb1) h0
    calc EPS ≤ 1 := by norm_num [EPS]
      _ ≤ base ^ alpha := h

/-- `_catmullRom` at parameter 0 returns the second control point exactly,
provided the first knot increment clears the `_safeDivide` epsilon. -/
theorem catmullRom_zero (p0 p1 p2 p3 : Vec3) {alpha : ℝ}
    (h1 : EPS ≤ knotStep p0 p1 alpha) :
    catmullRom p0 p1 p2 p3 0 alpha = p1 := by
  have hk1 : safeDivide (knotStep p0 p1 alpha) (knotStep p0 p1 alpha) = 1 :=
    safeDivide_self (by rwa [abs_of_pos (knotStep_pos p0 p1 alpha)])
  simp only [catmullRom, getT, zero_add, mul_zero, add_zero, sub_zero, sub_self,
    add_sub_cancel_left, safeDivide_zero_num, hk1, lerpVec3_one, lerpVec3_zero,
    lerpVec3_self]

theorem stepsFor_toNat_ge (sc segLen totalLen : ℝ) :
    4 ≤ (stepsFor sc segLen totalLen).toNat := by
  unfold stepsFor
  have h : (4 : ℤ) ≤ max 4 (jsRound (sc * (segLen / totalLen))) := le_max_left _ _
  omega

theorem segmentSamples_length (p0 p1 p2 p3 : Vec3) (steps : ℤ) (alpha : ℝ) :
    (segmentSamples p0 p1 p2 p3 steps alpha).length = steps.toNat := by
  simp [segmentSamples]

theorem segmentSamples_ne_nil (p0 p1 p2 p3 : Vec3) (steps : ℤ) (alpha : ℝ)
    (h : 0 < steps.toNat) : segmentSamples p0 p1 p2 p3 steps alpha ≠ [] := by
  intro hnil
  have hlen := segmentSamples_length p0 p1 p2 p3 steps alpha
  rw [hnil] at hlen
  simp only [List.length_nil] at hlen
  omega

theorem segmentSamples_head (p0 p1 p2 p3 : Vec3) (steps : ℤ) (alpha : ℝ)
    (h : 0 < steps.toNat) :
    (segmentSamples p0 p1 p2 p3 steps alpha).head? =
      some (catmullRom p0 p1 p2 p3 0 alpha) := by
  unfold segmentSamples
  obtain ⟨n, hn⟩ : ∃ n, steps.toNat = n + 1 := ⟨steps.toNat - 1, by omega⟩
  rw [hn, List.range_succ_eq_map, List.map_cons]
  simp

theorem head?_append_left {α : Type} (l1 l2 : List α) (h : l1 ≠ []) :
    (l1 ++ l2).head? = l1.head? := by
  cases l1 with
  | nil => exact absurd rfl h
  | cons a t => rfl

theorem head?_flatMap_append (f : ℕ → List Vec3) (m : ℕ) (hne : f 0 ≠ [])
    (l2 : List Vec3) :
    (((List.range (m + 1)).flatMap f) ++ l2).head? = (f 0).head? := by
  rw [List.range_succ_eq_map, List.flatMap_cons]
  rw [List.append_assoc]
  exact head?_append_left _ _ hne

theorem extendedPoints_getD_one (points : List Vec3) (prevPoint nextPoint : Option Vec3)
    (h : 1 ≤ points.length) :
    (extendedPoints points prevPoint nextPoint).getD 1 vzero = points.getD 0 vzero := by
  unfold extendedPoints
  rw [List.getD_cons_succ]
  exact List.getD_append _ _ _ _ (by omega)

theorem sampleCurve_head (points : List Vec3) (prevPoint nextPoint : Option Vec3)
    (sampleCount alpha : ℝ) (h2 : 2 ≤ points.length) (h0 : 0 ≤ alpha)
    (h1 : alpha ≤ 1) :
    (sampleCurve points prevPoint nextPoint sampleCount alpha).head? =
      some (points.getD 0 vzero) := by
  obtain ⟨m, hm⟩ : ∃ m, points.length - 1 = m + 1 := ⟨points.length - 2, by omega⟩
  unfold sampleCurve
  rw [if_neg (by omega)]
  rw [hm]
  rw [head?_flatMap_append _ m (by
    exact segmentSamples_ne_nil _ _ _ _ _ _ (by
      have := stepsFor_toNat_ge sampleCount
        (dist3 (points.getD (0 + 1) vzero) (points.getD 0 vzero)) (totalLengthOf points)
      omega))]
  rw [segmentSamples_head _ _ _ _ _ _ (by
    have := stepsFor_toNat_ge sampleCount
      (dist3 (points.getD (0 + 1) vzero) (points.getD 0 vzero)) (totalLengthOf points)
    omega)]
  rw [catmullRom_zero _ _ _ _ (knotStep_ge_eps _ _ h0 h1)]
  rw [extendedPoints_getD_one points prevPoint nextPoint (by omega)]

theorem sampleCurve_last (points : List Vec3) (prevPoint nextPoint : Option Vec3)
    (sampleCount alpha : ℝ) (h2 : 2 ≤ points.length) :
    (sampleCurve points prevPoint nextPoint sampleCount alpha).getLast? =
      some (points.getD (points.length - 1) vzero) := by
  unfold sampleCurve
  rw [if_neg (by omega)]
  exact List.getLast?_concat _

theorem sampleCurve_length (points : List Vec3) (prevPoint nextPoint : Option Vec3)
    (sampleCount alpha : ℝ) (h2 : 2 ≤ points.length) :
    2 ≤ (sampleCurve points prevPoint nextPoint sampleCount alpha).length := by
  obtain ⟨m, hm⟩ : ∃ m, points.length - 1 = m + 1 := ⟨points.length - 2, by omega⟩
  unfold sampleCurve
  rw [if_neg (by omega)]
  rw [hm, List.range_succ_eq_map, List.flatMap_cons]
  rw [List.length_append, List.length_append]
  rw [segmentSamples_length]
  have := stepsFor_toNat_ge sampleCount
    (dist3 (points.getD (0 + 1) vzero) (points.getD 0 vzero)) (totalLengthOf points)
  omega

/-- **C3**: for any chain of at least 2 points (and any exponent in the spec's
`[0, 1]` alpha range), the sampled curve starts exactly at the chain's first
point, ends exactly at its last point, and has at least 2 samples. -/
theorem c3_sampler_endpoints (points : List Vec3) (prevPoint nextPoint : Option Vec3)
    (sampleCount alpha : ℝ) (h2 : 2 ≤ points.length) (h0 : 0 ≤ alpha)
    (h1 : alpha ≤ 1) :
    (sampleCurve points prevPoint nextPoint sampleCount alpha).head? =
      some (points.getD 0 vzero) ∧
    (sampleCurve points prevPoint nextPoint sampleCount alpha).getLast? =
      some (points.getD (points.length - 1) vzero) ∧
    2 ≤ (sampleCurve points prevPoint nextPoint sampleCount alpha).length :=
  ⟨sampleCurve_head points prevPoint nextPoint sampleCount alpha h2 h0 h1,
    sampleCurve_last points prevPoint nextPoint sampleCount alpha h2,
    sampleCurve_length points prevPoint nextPoint sampleCount alpha h2⟩

/-- Witness for `c3_sampler_endpoints`: the two-point chain
`[(0,0,0), (1,0,0)]` at the default `alpha = 0.7`. -/
theorem c3_sampler_endpoints_wit :
    (2 ≤ ([vzero, ⟨1, 0, 0⟩] : List Vec3).length ∧ (0 : ℝ) ≤ 0.7 ∧ (0.7 : ℝ) ≤ 1) ∧
    (sampleCurve [vzero, ⟨1, 0, 0⟩] none none 24 0.7).head? = some vzero ∧
    2 ≤ (sampleCurve [vzero, ⟨1, 0, 0⟩] none none 24 0.7).length := by
  have h2 : 2 ≤ ([vzero, ⟨1, 0, 0⟩] : List Vec3).length := by simp
  have hc := c3_sampler_endpoints [vzero, ⟨1, 0, 0⟩] none none 24 0.7 h2
    (by norm_num) (by norm_num)
  exact ⟨⟨h2, by norm_num, by norm_num⟩, by simpa using hc.1, hc.2.2⟩

/-! ## Boundary extrapolation (claim C4) -/

theorem lengthSq_vsub_comm (a b : Vec3) : lengthSq (vsub a b) = lengthSq (vsub b a) := by
  simp only [lengthSq, vsub]
  ring

theorem vsub_vadd_cancel (a v : Vec3) : vsub (vadd a v) a = v := by
  refine vec3_eq ?_ ?_ ?_ <;> simp [vsub, vadd]

theorem lengthSq_nonneg (v : Vec3) : 0 ≤ lengthSq v := by
  simp only [lengthSq]
  positivity

theorem norm3_vscale (c : ℝ) (v : Vec3) : norm3 (vscale c v) = |c| * norm3 v := by
  simp only [norm3, vscale, lengthSq]
  rw [show (c * v.x) ^ 2 + (c * v.y) ^ 2 + (c * v.z) ^ 2
      = c ^ 2 * (v.x ^ 2 + v.y ^ 2 + v.z ^ 2) from by ring]
  rw [Real.sqrt_mul (sq_nonneg c), Real.sqrt_sq_eq_abs]

/-- The start control point the claim describes: 2 units outward from the
first point, away from the second. -/
noncomputable def claimedStartControl (first second : Vec3) : Vec3 :=
  vadd first (vscale (2 / norm3 (vsub first second)) (vsub first second))

theorem norm3_pos_of_eps {v : Vec3} (h : EPS ≤ lengthSq v) : 0 < norm3 v :=
  Real.sqrt_pos.mpr (lt_of_lt_of_le (by norm_num [EPS]) h)

theorem startBoundary_pair (a b : Vec3) (h : EPS ≤ lengthSq (vsub a b)) :
    startBoundary [a, b] none =
      vadd a (vscale (-2 / norm3 (vsub a b)) (vsub a b)) := by
  show extrapolate a b (-2) = _
  simp only [extrapolate]
  rw [if_neg (not_lt.mpr h)]

theorem endBoundary_pair (a b : Vec3) (h : EPS ≤ lengthSq (vsub b a)) :
    endBoundary [a, b] none =
      vadd b (vscale (2 / norm3 (vsub b a)) (vsub b a)) := by
  show extrapolate b a 2 = _
  simp only [extrapolate]
  rw [if_neg (not_lt.mpr h)]

/-- **C4** counterexample: for the two-point chain `[(0,0,0), (10,0,0)]` with
no external boundary points, the synthesized start control point is `(2,0,0)` —
two units from the first point *toward* the second (the `-2` factor reverses
the outward direction `p0 - p1`) — whereas the claim places it at `(-2,0,0)`,
two units away from the second point. -/
theorem c4_counterexample :
    startBoundary [vzero, ⟨10, 0, 0⟩] none = ⟨2, 0, 0⟩ ∧
    claimedStartControl vzero ⟨10, 0, 0⟩ = ⟨-2, 0, 0⟩ ∧
    (⟨2, 0, 0⟩ : Vec3) ≠ ⟨-2, 0, 0⟩ := by
  have hls : lengthSq (vsub vzero ⟨10, 0, 0⟩) = 100 := by
    simp [lengthSq, vsub, vzero]
    norm_num
  have hn : norm3 (vsub vzero ⟨10, 0, 0⟩) = 10 := by
    rw [norm3, hls, show (100 : ℝ) = 10 ^ 2 by norm_num,
      Real.sqrt_sq (by norm_num : (0 : ℝ) ≤ 10)]
  refine ⟨?_, ?_, ?_⟩
  · rw [startBoundary_pair vzero ⟨10, 0, 0⟩ (by rw [hls]; norm_num [EPS]), hn]
    refine vec3_eq ?_ ?_ ?_ <;> simp [vadd, vscale, vsub, vzero]
  · rw [claimedStartControl, hn]
    refine vec3_eq ?_ ?_ ?_ <;> simp [vadd, vscale, vsub, vzero]
  · intro h
    have hx := congrArg Vec3.x h
    norm_num at hx

/-- **C4** (amended): for a two-point chain `[a, b]` with no boundary points
(and a positive inter-point distance), the synthesized *end* control point
lies exactly 2 units beyond `b` along the outward chain direction as claimed,
but the *start* control point lies exactly 2 units from `a` along the
*forward* chain direction (toward `b`), i.e. `a - 2·unit(a−b)`, not 2 units
away from `b`; both control points are at distance exactly 2 from their
endpoint, and the sampled curve still starts at `a` and ends at `b` exactly. -/
theorem c4_two_point_extrapolation (a b : Vec3) (sampleCount alpha : ℝ)
    (hne : EPS ≤ lengthSq (vsub a b)) (h0 : 0 ≤ alpha) (h1 : alpha ≤ 1) :
    startBoundary [a, b] none =
      vadd a (vscale (-2 / norm3 (vsub a b)) (vsub a b)) ∧
    endBoundary [a, b] none =
      vadd b (vscale (2 / norm3 (vsub b a)) (vsub b a)) ∧
    norm3 (vsub (startBoundary [a, b] none) a) = 2 ∧
    norm3 (vsub (endBoundary [a, b] none) b) = 2 ∧
    (sampleCurve [a, b] none none sampleCount alpha).head? = some a ∧
    (sampleCurve [a, b] none none sampleCount alpha).getLast? = some b := by
  have hne' : EPS ≤ lengthSq (vsub b a) := by
    rwa [lengthSq_vsub_comm b a]
  have hs := startBoundary_pair a b hne
  have he := endBoundary_pair a b hne'
  have hn : 0 < norm3 (vsub a b) := norm3_pos_of_eps hne
  have hn' : 0 < norm3 (vsub b a) := norm3_pos_of_eps hne'
  refine ⟨hs, he, ?_, ?_, ?_, ?_⟩
  · rw [hs, vsub_vadd_cancel, norm3_vscale, abs_div, abs_neg, abs_two,
      abs_of_pos hn]
    exact div_mul_cancel₀ 2 (ne_of_gt hn)
  · rw [he, vsub_vadd_cancel, norm3_vscale, abs_div, abs_two, abs_of_pos hn']
    exact div_mul_cancel₀ 2 (ne_of_gt hn')
  · simpa using sampleCurve_head [a, b] none none sampleCount alpha (by simp) h0 h1
  · simpa using sampleCurve_last [a, b] none none sampleCount alpha (by simp)

/-- Witness for `c4_two_point_extrapolation` at `a = (0,0,0)`, `b = (10,0,0)`,
`alpha = 0.7`. -/
theorem c4_two_point_extrapolation_wit :
    (EPS ≤ lengthSq (vsub vzero ⟨10, 0, 0⟩) ∧ (0 : ℝ) ≤ 0.7 ∧ (0.7 : ℝ) ≤ 1) ∧
    norm3 (vsub (startBoundary [vzero, ⟨10, 0, 0⟩] none) vzero) = 2 ∧
    (sampleCurve [vzero, ⟨10, 0, 0⟩] none none 24 0.7).head? = some vzero := by
  have hls : lengthSq (vsub vzero ⟨10, 0, 0⟩) = 100 := by
    simp [lengthSq, vsub, vzero]
    norm_num
  have hne : EPS ≤ lengthSq (vsub vzero ⟨10, 0, 0⟩) := by
    rw [hls]
    norm_num [EPS]
  have hc := c4_two_point_extrapolation vzero ⟨10, 0, 0⟩ 24 0.7 hne
    (by norm_num) (by norm_num)
  exact ⟨⟨hne, by norm_num, by norm_num⟩, hc.2.2.1, hc.2.2.2.2.1⟩

/-! ## Sample-count monotonicity (claim C9) -/

theorem totalLengthOf_pos (points : List Vec3) : 0 < totalLengthOf points := by
  unfold totalLengthOf
  split
  · norm_num
  · rename_i h
    have := chainLength_nonneg points
    exact lt_of_le_of_ne this (Ne.symm h)

theorem stepsFor_mono_sc {sc sc' : ℝ} (segLen totalLen : ℝ) (hsc : sc ≤ sc')
    (hseg : 0 ≤ segLen) (htot : 0 < totalLen) :
    stepsFor sc segLen totalLen ≤ stepsFor sc' segLen totalLen := by
  unfold stepsFor jsRound
  apply max_le_max (le_refl _)
  apply Int.floor_le_floor
  have hr : 0 ≤ segLen / totalLen := div_nonneg hseg (le_of_lt htot)
  have := mul_le_mul_of_nonneg_right hsc hr
  linarith

theorem stepsFor_scale {c : ℝ} (hc : c ≠ 0) (sc segLen totalLen : ℝ) :
    stepsFor sc (c * segLen) (c * totalLen) = stepsFor sc segLen totalLen := by
  unfold stepsFor
  rw [mul_div_mul_left segLen totalLen hc]

theorem vsub_vscale (c : ℝ) (a b : Vec3) :
    vsub (vscale c a) (vscale c b) = vscale c (vsub a b) := by
  refine vec3_eq ?_ ?_ ?_ <;> simp [vsub, vscale] <;> ring

theorem dist3_vscale {c : ℝ} (hc : 0 ≤ c) (a b : Vec3) :
    dist3 (vscale c a) (vscale c b) = c * dist3 a b := by
  rw [dist3, vsub_vscale, show norm3 (vscale c (vsub a b)) = |c| * norm3 (vsub a b)
    from norm3_vscale c (vsub a b), abs_of_nonneg hc, dist3]

theorem chainLength_scale {c : ℝ} (hc : 0 ≤ c) (points : List Vec3) :
    chainLength (points.map (vscale c)) = c * chainLength points := by
  induction points with
  | nil => simp [chainLength]
  | cons a rest ih =>
    cases rest with
    | nil => simp [chainLength]
    | cons b r =>
      simp only [List.map_cons, chainLength] at ih ⊢
      rw [dist3_vscale hc, ih]
      ring

theorem getD_map_vscale (c : ℝ) (points : List Vec3) (i : ℕ)
    (h : i < points.length) :
    (points.map (vscale c)).getD i vzero = vscale c (points.getD i vzero) := by
  rw [List.getD_eq_getElem _ _ (by simpa using h), List.getD_eq_getElem _ _ h]
  exact List.getElem_map _

theorem dist_le_chainLength (points : List Vec3) (i : ℕ)
    (h : i + 1 < points.length) :
    dist3 (points.getD (i + 1) vzero) (points.getD i vzero) ≤ chainLength points := by
  induction points generalizing i with
  | nil => simp at h
  | cons a rest ih =>
    cases rest with
    | nil => simp at h
    | cons b r =>
      match i with
      | 0 =>
        simp only [List.getD_cons_succ, List.getD_cons_zero, chainLength]
        have := chainLength_nonneg (b :: r)
        linarith
      | Nat.succ j =>
        simp only [List.getD_cons_succ, chainLength]
        have hj : j + 1 < (b :: r).length := by simpa using h
        have h1 := ih j hj
        simp only [List.getD_cons_succ] at h1
        have h2 := dist3_nonneg b a
        linarith

theorem sampleCurve_length_mono_sc (points : List Vec3)
    (prevPoint nextPoint : Option Vec3) (alpha : ℝ) {sc sc' : ℝ} (h : sc ≤ sc') :
    (sampleCurve points prevPoint nextPoint sc alpha).length ≤
      (sampleCurve points prevPoint nextPoint sc' alpha).length := by
  unfold sampleCurve
  by_cases h2 : points.length < 2
  · rw [if_pos h2, if_pos h2]
  · rw [if_neg h2, if_neg h2, List.length_append, List.length_append,
      List.length_flatMap, List.length_flatMap]
    apply Nat.add_le_add_right
    apply List.sum_le_sum
    intro i _
    simp only [Function.comp, segmentSamples_length]
    exact Int.toNat_le_toNat (stepsFor_mono_sc _ _ h (dist3_nonneg _ _)
      (totalLengthOf_pos points))

/-- **C9**: holding the chain and all other parameters fixed, the Spline
Sampler's total output sample count is monotonically non-decreasing in the
`samplesPerUnit` density; and holding the density (non-negative) fixed, it is
monotonically non-decreasing under uniform scaling of the chain by any factor
`c ≥ 1` (which scales the arc length by `c` and preserves the per-interior-
segment length ratios). -/
theorem c9_sample_count_monotone (points : List Vec3)
    (prevPoint nextPoint : Option Vec3) (alpha minSamples : ℝ) :
    (∀ d d' : ℝ, d ≤ d' →
      (builderSamples minSamples d alpha points prevPoint nextPoint).length ≤
        (builderSamples minSamples d' alpha points prevPoint nextPoint).length) ∧
    (∀ c d : ℝ, 1 ≤ c → 0 ≤ d →
      (builderSamples minSamples d alpha points prevPoint nextPoint).length ≤
        (builderSamples minSamples d alpha (points.map (vscale c))
          (prevPoint.map (vscale c)) (nextPoint.map (vscale c))).length) := by
  constructor
  · intro d d' hd
    apply sampleCurve_length_mono_sc
    unfold builderSampleCount
    apply max_le_max (le_refl _)
    exact_mod_cast Int.ceil_le_ceil
      (mul_le_mul_of_nonneg_left hd (chainLength_nonneg points))
  · intro c d hc hd
    have hc0 : (0 : ℝ) < c := lt_of_lt_of_le one_pos hc
    unfold builderSamples
    unfold sampleCurve
    by_cases h2 : points.length < 2
    · rw [if_pos h2, if_pos (by simpa using h2), List.length_map]
    · rw [if_neg h2, if_neg (by simpa using h2), List.length_append,
        List.length_append, List.length_flatMap, List.length_flatMap,
        List.length_map]
      apply Nat.add_le_add_right
      apply List.sum_le_sum
      intro i hi
      have hi' : i + 1 < points.length := by
        rw [List.mem_range] at hi
        omega
      simp only [Function.comp, segmentSamples_length]
      apply Int.toNat_le_toNat
      rw [getD_map_vscale c points (i + 1) hi', getD_map_vscale c points i (by omega),
        dist3_vscale (le_of_lt hc0)]
      -- compare budgets
      have hbudget : builderSampleCount minSamples d points ≤
          builderSampleCount minSamples d (points.map (vscale c)) := by
        unfold builderSampleCount
        rw [chainLength_scale (le_of_lt hc0)]
        apply max_le_max (le_refl _)
        have hmul : chainLength points * d ≤ c * chainLength points * d := by
          have h1 : chainLength points ≤ c * chainLength points := by
            nlinarith [chainLength_nonneg points]
          exact mul_le_mul_of_nonneg_right h1 hd
        exact_mod_cast Int.ceil_le_ceil hmul
      by_cases hz : chainLength points = 0
      · -- all interior distances are zero; the ratio is 0 on both sides
        have hdz : dist3 (points.getD (i + 1) vzero) (points.getD i vzero) = 0 := by
          have hle := dist_le_chainLength points i hi'
          have hge := dist3_nonneg (points.getD (i + 1) vzero) (points.getD i vzero)
          rw [hz] at hle
          linarith
        have hzs : chainLength (points.map (vscale c)) = 0 := by
          rw [chainLength_scale (le_of_lt hc0), hz, mul_zero]
        unfold totalLengthOf
        rw [if_pos hz, if_pos hzs, hdz, mul_zero]
        exact stepsFor_mono_sc _ _ hbudget (le_refl 0) one_pos
      · have hzs : chainLength (points.map (vscale c)) ≠ 0 := by
          rw [chainLength_scale (le_of_lt hc0)]
          exact mul_ne_zero (ne_of_gt hc0) hz
        unfold totalLengthOf
        rw [if_neg hz, if_neg hzs, chainLength_scale (le_of_lt hc0),
          stepsFor_scale (ne_of_gt hc0)]
        exact stepsFor_mono_sc _ _ hbudget (dist3_nonneg _ _)
          (lt_of_le_of_ne (chainLength_nonneg points) (Ne.symm hz))

/-- Witness for `c9_sample_count_monotone`: density 6 vs 12 and uniform
scaling by 2 on a unit two-point chain. -/
theorem c9_sample_count_monotone_wit :
    ((6 : ℝ) ≤ 12 ∧ (1 : ℝ) ≤ 2 ∧ (0 : ℝ) ≤ 6) ∧
    (builderSamples 24 6 0.7 [vzero, ⟨1, 0, 0⟩] none none).length ≤
      (builderSamples 24 12 0.7 [vzero, ⟨1, 0, 0⟩] none none).length ∧
    (builderSamples 24 6 0.7 [vzero, ⟨1, 0, 0⟩] none none).length ≤
      (builderSamples 24 6 0.7 ([vzero, ⟨1, 0, 0⟩].map (vscale 2))
        ((none : Option Vec3).map (vscale 2))
        ((none : Option Vec3).map (vscale 2))).length := by
  have h := c9_sample_count_monotone [vzero, ⟨1, 0, 0⟩] none none 0.7 24
  exact ⟨⟨by norm_num, by norm_num, by norm_num⟩, h.1 6 12 (by norm_num),
    h.2 2 6 (by norm_num) (by norm_num)⟩

/-! ## Clamped-lerp bounding box (claim C10) -/

/-- Membership in the axis-aligned bounding box spanned by four control
points. -/
def inBox (q p0 p1 p2 p3 : Vec3) : Prop :=
  (min (min p0.x p1.x) (min p2.x p3.x) ≤ q.x ∧
    q.x ≤ max (max p0.x p1.x) (max p2.x p3.x)) ∧
  (min (min p0.y p1.y) (min p2.y p3.y) ≤ q.y ∧
    q.y ≤ max (max p0.y p1.y) (max p2.y p3.y)) ∧
  (min (min p0.z p1.z) (min p2.z p3.z) ≤ q.z ∧
    q.z ≤ max (max p0.z p1.z) (max p2.z p3.z))

theorem lerp_coord_mem {lo hi a b : ℝ} (t : ℝ) (ha : lo ≤ a ∧ a ≤ hi)
    (hb : lo ≤ b ∧ b ≤ hi) :
    lo ≤ a + min (max t 0) 1 * (b - a) ∧ a + min (max t 0) 1 * (b - a) ≤ hi := by
  set s := min (max t 0) 1 with hs
  have h0 : 0 ≤ s := le_min (le_max_right t 0) zero_le_one
  have h1 : s ≤ 1 := min_le_right _ _
  have e1 : 0 ≤ (1 - s) * (a - lo) := mul_nonneg (by linarith) (by linarith [ha.1])
  have e2 : 0 ≤ s * (b - lo) := mul_nonneg h0 (by linarith [hb.1])
  have e3 : 0 ≤ (1 - s) * (hi - a) := mul_nonneg (by linarith) (by linarith [ha.2])
  have e4 : 0 ≤ s * (hi - b) := mul_nonneg h0 (by linarith [hb.2])
  constructor <;> nlinarith

theorem lerpVec3_mem_box {p0 p1 p2 p3 a b : Vec3} (t : ℝ)
    (hA : inBox a p0 p1 p2 p3) (hB : inBox b p0 p1 p2 p3) :
    inBox (lerpVec3 a b t) p0 p1 p2 p3 := by
  obtain ⟨hax, hay, haz⟩ := hA
  obtain ⟨hbx, hby, hbz⟩ := hB
  exact ⟨lerp_coord_mem t hax hbx, lerp_coord_mem t hay hby,
    lerp_coord_mem t haz hbz⟩

theorem ctrl0_mem_box (p0 p1 p2 p3 : Vec3) : inBox p0 p0 p1 p2 p3 := by
  refine ⟨⟨?_, ?_⟩, ⟨?_, ?_⟩, ⟨?_, ?_⟩⟩ <;> simp [min_le_iff, le_max_iff]

theorem ctrl1_mem_box (p0 p1 p2 p3 : Vec3) : inBox p1 p0 p1 p2 p3 := by
  refine ⟨⟨?_, ?_⟩, ⟨?_, ?_⟩, ⟨?_, ?_⟩⟩ <;> simp [min_le_iff, le_max_iff]

theorem ctrl2_mem_box (p0 p1 p2 p3 : Vec3) : inBox p2 p0 p1 p2 p3 := by
  refine ⟨⟨?_, ?_⟩, ⟨?_, ?_⟩, ⟨?_, ?_⟩⟩ <;> simp [min_le_iff, le_max_iff]

theorem ctrl3_mem_box (p0 p1 p2 p3 : Vec3) : inBox p3 p0 p1 p2 p3 := by
  refine ⟨⟨?_, ?_⟩, ⟨?_, ?_⟩, ⟨?_, ?_⟩⟩ <;> simp [min_le_iff, le_max_iff]

/-- Every `_catmullRom` evaluation is a nested clamped convex combination of
its four control points, hence lies in their bounding box — for *any*
parameter and alpha. -/
theorem catmullRom_mem_box (p0 p1 p2 p3 : Vec3) (t alpha : ℝ) :
    inBox (catmullRom p0 p1 p2 p3 t alpha) p0 p1 p2 p3 := by
  simp only [catmullRom]
  apply lerpVec3_mem_box
  · apply lerpVec3_mem_box
    · exact lerpVec3_mem_box _ (ctrl0_mem_box p0 p1 p2 p3) (ctrl1_mem_box p0 p1 p2 p3)
    · exact lerpVec3_mem_box _ (ctrl1_mem_box p0 p1 p2 p3) (ctrl2_mem_box p0 p1 p2 p3)
  · apply lerpVec3_mem_box
    · exact lerpVec3_mem_box _ (ctrl1_mem_box p0 p1 p2 p3) (ctrl2_mem_box p0 p1 p2 p3)
    · exact lerpVec3_mem_box _ (ctrl2_mem_box p0 p1 p2 p3) (ctrl3_mem_box p0 p1 p2 p3)

/-- **C10**: every sample the Spline Sampler emits lies within the axis-aligned
bounding box of the four control points of the interior segment that produced
it; the appended exact final point lies in the last interior segment's box (it
is that segment's third control point). -/
theorem c10_samples_in_box (points : List Vec3) (prevPoint nextPoint : Option Vec3)
    (sampleCount alpha : ℝ) (h2 : 2 ≤ points.length) :
    ∀ q ∈ sampleCurve points prevPoint nextPoint sampleCount alpha,
      ∃ i < points.length - 1,
        inBox q ((extendedPoints points prevPoint nextPoint).getD i vzero)
          ((extendedPoints points prevPoint nextPoint).getD (i + 1) vzero)
          ((extendedPoints points prevPoint nextPoint).getD (i + 2) vzero)
          ((extendedPoints points prevPoint nextPoint).getD (i + 3) vzero) := by
  intro q hq
  unfold sampleCurve at hq
  rw [if_neg (by omega)] at hq
  rcases List.mem_append.mp hq with hq | hq
  · obtain ⟨i, hi, hqi⟩ := List.mem_flatMap.mp hq
    rw [List.mem_range] at hi
    obtain ⟨j, _, rfl⟩ := List.mem_map.mp hqi
    exact ⟨i, hi, catmullRom_mem_box _ _ _ _ _ _⟩
  · rw [List.mem_singleton] at hq
    subst hq
    refine ⟨points.length - 2, by omega, ?_⟩
    have hgd : (extendedPoints points prevPoint nextPoint).getD
        (points.length - 2 + 2) vzero = points.getD (points.length - 1) vzero := by
      unfold extendedPoints
      rw [show points.length - 2 + 2 = (points.length - 1) + 1 from by omega,
        List.getD_cons_succ]
      exact List.getD_append _ _ _ _ (by omega)
    rw [← hgd]
    exact ctrl2_mem_box _ _ _ _

theorem mem_of_head_eq {α : Type} {l : List α} {a : α} (h : l.head? = some a) :
    a ∈ l := by
  cases l with
  | nil => simp at h
  | cons b t =>
    simp only [List.head?_cons, Option.some_inj] at h
    subst h
    exact List.mem_cons_self _ _

/-- Witness for `c10_samples_in_box`: the first emitted sample of the unit
two-point chain lies in some interior segment's control box. -/
theorem c10_samples_in_box_wit :
    (2 ≤ ([vzero, ⟨1, 0, 0⟩] : List Vec3).length ∧
      vzero ∈ sampleCurve [vzero, ⟨1, 0, 0⟩] none none 24 0.7) ∧
    ∃ i < ([vzero, ⟨1, 0, 0⟩] : List Vec3).length - 1,
      inBox vzero ((extendedPoints [vzero, ⟨1, 0, 0⟩] none none).getD i vzero)
        ((extendedPoints [vzero, ⟨1, 0, 0⟩] none none).getD (i + 1) vzero)
        ((extendedPoints [vzero, ⟨1, 0, 0⟩] none none).getD (i + 2) vzero)
        ((extendedPoints [vzero, ⟨1, 0, 0⟩] none none).getD (i + 3) vzero) := by
  have h2 : 2 ≤ ([vzero, ⟨1, 0, 0⟩] : List Vec3).length := by simp
  have hhead := sampleCurve_head [vzero, ⟨1, 0, 0⟩] none none 24 0.7 h2
    (by norm_num) (by norm_num)
  have hmem : vzero ∈ sampleCurve [vzero, ⟨1, 0, 0⟩] none none 24 0.7 :=
    mem_of_head_eq (by simpa using hhead)
  exact ⟨⟨h2, hmem⟩,
    c10_samples_in_box [vzero, ⟨1, 0, 0⟩] none none 24 0.7 h2 vzero hmem⟩

end RoomNav
